import Mathlib

/-!
Verification of the WokiBrain booking engine (TypeScript sources under
`src/domain/gaps.ts`, `src/domain/wokibrain.ts`, `src/store/db.ts` and the
route handlers).

Modelling conventions:
* A moment in time is an `Int`, counted in minutes.  `parseTime date "HH:mm"`
  from `gaps.ts` becomes `dayBase + 60*HH + mm`, where `dayBase` is the
  minute index of the date's midnight; all source comparisons
  (`isBefore`, `isAfter`, `<=` on `Date`, millisecond differences divided
  by 60000) are linear in that representation.  ISO timestamp strings
  compare lexicographically exactly as their minute values compare.
* Wall-clock instants used by the store (`Date.now()`, lock and idempotency
  expiries) are `Int` milliseconds; they never mix with gap minutes.
* A JavaScript `Map` is an association list in insertion order:
  `Map.get` is `mapGet`, `Map.set` is `mapSet` (replace in place or append),
  `Map.delete` is `mapErase`.
* `Array.prototype.sort` (ES2019: stable) is `List.insertionSort`, which is
  stable with the same tie behaviour, and for the consistent comparators
  used here a stable sort's output is unique.
* The route handlers are pure state transformers `state → response × state`;
  the identifier drawn from `Date.now()`/`Math.random()` and the current
  wall-clock time are explicit parameters.
-/

/-- Half-open time interval `[start, stop)`; the `TimeSlot` interface of the
source (field `end` is renamed `stop`, `end` being reserved in Lean). -/
structure Slot where
  start : Int
  stop : Int
deriving DecidableEq

/-- Booking lifecycle status (`'CONFIRMED' | 'CANCELLED'`). -/
inductive BookingStatus
  | confirmed
  | cancelled
deriving DecidableEq

/-- The `Booking` interface.  `start`/`stop` are minutes, `createdAt` and
`updatedAt` are wall-clock milliseconds. -/
structure Booking where
  id : String
  restaurantId : String
  sectorId : String
  tableIds : List String
  partySize : Int
  durationMinutes : Int
  start : Int
  stop : Int
  status : BookingStatus
  createdAt : Int
  updatedAt : Int
deriving DecidableEq

/-- The `Table` interface (fields the engine uses). -/
structure Table where
  id : String
  sectorId : String
  minSize : Int
  maxSize : Int
deriving DecidableEq

/-- The `Restaurant` interface: its service windows are time-of-day minute
pairs (the source stores "HH:mm" strings and parses them per date). -/
structure Restaurant where
  id : String
  windows : List Slot
deriving DecidableEq

/-- The `Sector` interface (fields the engine uses). -/
structure Sector where
  id : String
  restaurantId : String
deriving DecidableEq

/-- Candidate kind: `'single' | 'combo'`. -/
inductive CandKind
  | single
  | combo
deriving DecidableEq

/-- The `Candidate` interface; `start`/`stop` are minutes (the source keeps
ISO strings, whose lexicographic order agrees with the minute order). -/
structure Candidate where
  kind : CandKind
  tableIds : List String
  start : Int
  stop : Int
  waste : Int
deriving DecidableEq

/-- Inner sweep of `findGaps` (gaps.ts lines 64-89) for one search window
`[wStart, wStop]`: walk the sorted bookings keeping a cursor `current`;
a booking entirely before the window is skipped (`continue`), a booking
starting after the window stops the walk (`break`, followed by the
trailing-gap check), otherwise the gap `[current, booking.start)` is
emitted when it is non-empty and at least `duration` minutes long, and the
cursor advances to `booking.stop` when that is later. -/
def sweepWindow (duration wStart wStop : Int) : Int → List Slot → List Slot
  | current, [] =>
      if current < wStop ∧ duration ≤ wStop - current then [⟨current, wStop⟩] else []
  | current, b :: rest =>
      if b.stop < wStart then sweepWindow duration wStart wStop current rest
      else if wStop < b.start then
        (if current < wStop ∧ duration ≤ wStop - current then [⟨current, wStop⟩] else [])
      else
        (if current < b.start ∧ duration ≤ b.start - current then [⟨current, b.start⟩] else [])
          ++ sweepWindow duration wStart wStop
              (if current < b.stop then b.stop else current) rest

/-- `findGaps` (gaps.ts lines 37-92).  `windows` are time-of-day minute
pairs for the date `dayBase`; with no windows the search window is the
full day `00:00`-`23:59`, i.e. `[dayBase, dayBase + 1439]`.  Bookings are
filtered to this table's non-cancelled ones and stably sorted by start. -/
def findGaps (tableId : String) (bookings : List Booking) (dayBase : Int)
    (duration : Int) (windows : List Slot) : List Slot :=
  let searchWindows : List Slot :=
    if windows.isEmpty then [⟨dayBase, dayBase + 1439⟩]
    else windows.map (fun w => ⟨dayBase + w.start, dayBase + w.stop⟩)
  let tableBookings : List Slot :=
    ((bookings.filter (fun b =>
          b.tableIds.contains tableId && b.status != BookingStatus.cancelled)).map
        (fun b => (⟨b.start, b.stop⟩ : Slot))).insertionSort
      (fun a b => a.start ≤ b.start)
  searchWindows.flatMap (fun w => sweepWindow duration w.start w.stop w.start tableBookings)

/-- One fold step of `intersectGaps` (gaps.ts lines 117-134): all pairwise
intersections of a running gap list with the next table's gaps, keeping
only non-empty overlaps of at least `duration` minutes. -/
def pairInter (duration : Int) (commonGaps nextGaps : List Slot) : List Slot :=
  commonGaps.flatMap (fun compared =>
    nextGaps.filterMap (fun nextToCompare =>
      let s := if nextToCompare.start < compared.start then compared.start
               else nextToCompare.start
      let e := if compared.stop < nextToCompare.stop then compared.stop
               else nextToCompare.stop
      if s < e ∧ duration ≤ e - s then some ⟨s, e⟩ else none))

/-- `intersectGaps` (gaps.ts lines 112-138): seed with the first table's
gaps, then fold `pairInter` over the remaining tables' gap lists. -/
def intersectGaps (gaps : List (List Slot)) (duration : Int) : List Slot :=
  match gaps with
  | [] => []
  | g0 :: rest => rest.foldl (fun commonGaps nextGaps => pairInter duration commonGaps nextGaps) g0

/-- Number of iterations of the `while (current <= lastStart)` loop of
`discretizeGaps` when started at `current = cur`: one slot every 15
minutes while the window start does not pass `lastStart`. -/
def numSlots (cur lastStart : Int) : Nat :=
  if cur ≤ lastStart then ((lastStart - cur).toNat / 15) + 1 else 0

/-- Start times produced by `n` iterations of the slide loop from `cur`,
stepping 15 minutes. -/
def gapStarts (cur : Int) : Nat → List Int
  | 0 => []
  | n + 1 => cur :: gapStarts (cur + 15) n

/-- Candidates produced from one gap by `discretizeGaps` (gaps.ts lines
164-177): slide a window of `durationMinutes` across the gap in 15-minute
steps while it still fits (`current <= gap.end - durationMinutes`).  The
loop is modelled by its iteration count `numSlots`; the theorem
`gapStarts_loop_eq` below shows the model satisfies exactly the loop's
defining equations. -/
def gapCandidates (durationMinutes : Int) (tableIds : List String) (kind : CandKind)
    (waste : Int) (gap : Slot) : List Candidate :=
  (gapStarts gap.start (numSlots gap.start (gap.stop - durationMinutes))).map
    (fun s => ⟨kind, tableIds, s, s + durationMinutes, waste⟩)

/-- `discretizeGaps` (gaps.ts lines 161-181). -/
def discretizeGaps (gaps : List Slot) (durationMinutes : Int) (tableIds : List String)
    (kind : CandKind) (waste : Int) : List Candidate :=
  gaps.flatMap (gapCandidates durationMinutes tableIds kind waste)

/-- `getDurationForPartySize` (wokibrain.ts lines 16-21). -/
def getDurationForPartySize (partySize : Int) : Int :=
  if partySize ≤ 2 then 75
  else if partySize ≤ 4 then 90
  else if partySize ≤ 8 then 120
  else 150

/-- `getComboCapacity` (wokibrain.ts lines 35-39): sum of member capacities. -/
def getComboCapacity (tables : List Table) : Int × Int :=
  (tables.foldl (fun sum t => sum + t.minSize) 0,
   tables.foldl (fun sum t => sum + t.maxSize) 0)

/-- `getAllCombinations` (wokibrain.ts lines 52-57): powerset built by the
same `reduce` as the source, preserving its enumeration order. -/
def getAllCombinations {α : Type} (arr : List α) : List (List α) :=
  arr.foldl (fun subsets value => subsets ++ subsets.map (fun s => value :: s)) [[]]

/-- `findCandidates` (wokibrain.ts lines 76-108): phase 1 pushes discrete
candidates for every single table whose capacity range contains the party,
phase 2 does the same for every size-≥2 combination whose summed capacity
range contains the party, using the intersection of the members' gaps. -/
def findCandidates (tables : List Table) (bookings : List Booking) (dayBase : Int)
    (partySize duration : Int) (windows : List Slot) : List Candidate :=
  let singles := tables.flatMap (fun table =>
    if table.minSize ≤ partySize ∧ partySize ≤ table.maxSize then
      discretizeGaps (findGaps table.id bookings dayBase duration windows)
        duration [table.id] CandKind.single (table.maxSize - partySize)
    else [])
  let combos := (getAllCombinations tables).flatMap (fun combo =>
    if combo.length < 2 then []
    else
      let caps := getComboCapacity combo
      if caps.1 ≤ partySize ∧ partySize ≤ caps.2 then
        discretizeGaps
          (intersectGaps (combo.map (fun t =>
            findGaps t.id bookings dayBase duration windows)) duration)
          duration (combo.map (fun t => t.id)) CandKind.combo (caps.2 - partySize)
      else [])
  singles ++ combos

/-- Three-valued lexicographic comparison of character lists, the model of
`String.prototype.localeCompare` on the plain ASCII identifiers and
ISO timestamps the source compares. -/
def strCmp : List Char → List Char → Int
  | [], [] => 0
  | [], _ :: _ => -1
  | _ :: _, [] => 1
  | a :: s, b :: t => if a < b then -1 else if b < a then 1 else strCmp s t

/-- The comparator of `selectBestCandidate` (wokibrain.ts lines 125-130):
kind (`single` first), then waste ascending, then start ascending
(`localeCompare` on ISO strings, i.e. the minute order), then the
comma-joined table ids compared lexicographically. -/
def candCompare (a b : Candidate) : Int :=
  if a.kind ≠ b.kind then (if a.kind = CandKind.single then -1 else 1)
  else if a.waste ≠ b.waste then a.waste - b.waste
  else if a.start ≠ b.start then (if a.start < b.start then -1 else 1)
  else strCmp (String.intercalate "," a.tableIds).toList
         (String.intercalate "," b.tableIds).toList

/-- Non-strict order induced by `candCompare`; `insertionSort` over it is
the stable sort `Array.prototype.sort` performs with that comparator. -/
def candLe (a b : Candidate) : Prop := candCompare a b ≤ 0

instance : DecidableRel candLe := fun a b => (inferInstance : Decidable (candCompare a b ≤ 0))

/-- `selectBestCandidate` (wokibrain.ts lines 122-131): `null` on an empty
list, otherwise the first element after sorting with the comparator. -/
def selectBestCandidate (candidates : List Candidate) : Option Candidate :=
  match candidates with
  | [] => none
  | _ => (candidates.insertionSort candLe).head?

/-- `selectBestCandidate` together with the final contents of its argument
array: `candidates.sort(...)` sorts the caller's array in place, so after
the call the array holds the sorted permutation. -/
def selectBestCandidateArr (candidates : List Candidate) : Option Candidate × List Candidate :=
  match candidates with
  | [] => (none, candidates)
  | _ =>
    let sorted := candidates.insertionSort candLe
    (sorted.head?, sorted)

/-- `Map.prototype.get`: value of the first (unique) matching key. -/
def mapGet {κ β : Type} [DecidableEq κ] (m : List (κ × β)) (key : κ) : Option β :=
  match m with
  | [] => none
  | (k2, v) :: rest => if k2 = key then some v else mapGet rest key

/-- `Map.prototype.set`: replace the entry in place, or append a new one. -/
def mapSet {κ β : Type} [DecidableEq κ] (m : List (κ × β)) (key : κ) (v : β) : List (κ × β) :=
  match m with
  | [] => [(key, v)]
  | (k2, v2) :: rest =>
      if k2 = key then (key, v) :: rest else (k2, v2) :: mapSet rest key v

/-- `Map.prototype.delete`: drop every entry with that key. -/
def mapErase {κ β : Type} [DecidableEq κ] (m : List (κ × β)) (key : κ) : List (κ × β) :=
  match m with
  | [] => []
  | (k2, v) :: rest =>
      if k2 = key then mapErase rest key else (k2, v) :: mapErase rest key

/-- `acquireLock` (db.ts lines 155-163) as a function of the lock map and
the current time `now` (`Date.now()`), returning the success flag and the
updated map.  The source's `if (existing && existing > now)` tests JS
truthiness, so a stored expiry of exactly `0` counts as absent. -/
def acquireLock (locks : List (String × Int)) (key : String) (ttlMs now : Int) :
    Bool × List (String × Int) :=
  match mapGet locks key with
  | some existing =>
      if existing ≠ 0 ∧ now < existing then (false, locks)
      else (true, mapSet locks key (now + ttlMs))
  | none => (true, mapSet locks key (now + ttlMs))

/-- `releaseLock` (db.ts lines 170-172): unconditional delete. -/
def releaseLock (locks : List (String × Int)) (key : String) : List (String × Int) :=
  mapErase locks key

/-- An idempotency-map entry: `{ booking, expiresAt }`. -/
structure IdemEntry where
  booking : Booking
  expiresAt : Int
deriving DecidableEq

/-- The mutable fields of the `MemoryStore` singleton (db.ts lines 19-26). -/
structure SysState where
  restaurant : Option Restaurant
  sector : Option Sector
  tables : List Table
  bookings : List (String × Booking)
  locks : List (String × Int)
  idem : List (String × IdemEntry)
deriving DecidableEq

/-- `getRestaurant` (db.ts lines 69-71). -/
def getRestaurant (st : SysState) (id : String) : Option Restaurant :=
  match st.restaurant with
  | some r => if r.id = id then some r else none
  | none => none

/-- `getSector` (db.ts lines 79-81). -/
def getSector (st : SysState) (id : String) : Option Sector :=
  match st.sector with
  | some s => if s.id = id then some s else none
  | none => none

/-- `getTables` (db.ts lines 89-91): tables of the sector in insertion order. -/
def getTables (st : SysState) (sectorId : String) : List Table :=
  st.tables.filter (fun t => t.sectorId == sectorId)

/-- `getAllBookings` (db.ts lines 115-117). -/
def getAllBookings (st : SysState) : List Booking :=
  st.bookings.map (fun p => p.2)

/-- `getIdempotency` (db.ts lines 182-192): a hit returns the stored
booking unchanged; an expired entry is deleted and reported as a miss. -/
def getIdempotency (st : SysState) (key : String) (now : Int) : Option Booking × SysState :=
  match mapGet st.idem key with
  | none => (none, st)
  | some entry =>
      if entry.expiresAt ≤ now then (none, { st with idem := mapErase st.idem key })
      else (some entry.booking, st)

/-- Post-validation body of `POST /woki/bookings` (`CreateBookingSchema`);
`window` is the optional `windowStart`/`windowEnd` pair in time-of-day
minutes, `dayBase` the minute index of the date's midnight. -/
structure BookingBody where
  restaurantId : String
  sectorId : String
  partySize : Int
  dayBase : Int
  window : Option Slot
deriving DecidableEq

/-- Responses of the booking-creation handler. -/
inductive BookResponse
  | ok200 (b : Booking)
  | created201 (b : Booking)
  | invalid400
  | notFound404
  | conflictBusy409
  | noCapacity409
deriving DecidableEq

/-- Selection and commit step of the `bookings` handler (routes lines
126-152), entered with the lock held: select the best candidate (409 when
none), commit the booking, record the idempotency entry when a key was
supplied; the `finally` releases the lock on each exit path. -/
def bookingsSelect (st : SysState) (idemKey : Option String) (bd : BookingBody)
    (durationMinutes : Int) (lockKey : String) (now : Int) (newId : String)
    (candidates : List Candidate) : BookResponse × SysState :=
  match selectBestCandidate candidates with
  | none => (BookResponse.noCapacity409, { st with locks := releaseLock st.locks lockKey })
  | some best =>
    let newBooking : Booking :=
      { id := newId, restaurantId := bd.restaurantId, sectorId := bd.sectorId,
        tableIds := best.tableIds, partySize := bd.partySize,
        durationMinutes := durationMinutes, start := best.start, stop := best.stop,
        status := BookingStatus.confirmed, createdAt := now, updatedAt := now }
    let st2 := { st with bookings := mapSet st.bookings newId newBooking }
    let st3 := match idemKey with
      | some key => { st2 with idem := mapSet st2.idem key ⟨newBooking, now + 86400000⟩ }
      | none => st2
    (BookResponse.created201 newBooking, { st3 with locks := releaseLock st3.locks lockKey })

/-- Body of the `try` block of the `bookings` handler (routes lines
115-155), entered with the lock already held and recorded in `st`: look up
the restaurant (404), compute the candidates over the explicit window or
the restaurant's windows, then select and commit. -/
def bookingsFinish (st : SysState) (idemKey : Option String) (bd : BookingBody)
    (durationMinutes : Int) (lockKey : String) (now : Int) (newId : String) :
    BookResponse × SysState :=
  match getRestaurant st bd.restaurantId with
  | none => (BookResponse.notFound404, { st with locks := releaseLock st.locks lockKey })
  | some restaurant =>
    bookingsSelect st idemKey bd durationMinutes lockKey now newId
      (findCandidates (getTables st bd.sectorId) (getAllBookings st) bd.dayBase
        bd.partySize durationMinutes
        (match bd.window with
          | some w => [w]
          | none => restaurant.windows))

/-- Body of the `bookings` handler after the idempotency short-circuit
(routes lines 101-155): validate, compute the duration, acquire the
per-`restaurant:sector:date` lock (409 on failure, with the lock map left
as `acquireLock` returned it, i.e. unchanged), then run the `try` block. -/
def bookingsCore (st : SysState) (idemKey : Option String) (body : Option BookingBody)
    (now : Int) (newId : String) : BookResponse × SysState :=
  match body with
  | none => (BookResponse.invalid400, st)
  | some bd =>
    let durationMinutes := getDurationForPartySize bd.partySize
    let lockKey := bd.restaurantId ++ ":" ++ bd.sectorId ++ ":" ++ toString bd.dayBase
    let acq := acquireLock st.locks lockKey 5000 now
    if acq.1 then
      bookingsFinish { st with locks := acq.2 } idemKey bd durationMinutes lockKey now newId
    else
      (BookResponse.conflictBusy409, { st with locks := acq.2 })

/-- The `bookings` handler (routes lines 94-156): with an `Idempotency-Key`
header, a non-expired stored result is returned immediately with 200,
before any validation; otherwise the core runs. -/
def bookingsHandler (st : SysState) (idemKey : Option String) (body : Option BookingBody)
    (now : Int) (newId : String) : BookResponse × SysState :=
  match idemKey with
  | some key =>
    match getIdempotency st key now with
    | (some existing, st2) => (BookResponse.ok200 existing, st2)
    | (none, st2) => bookingsCore st2 idemKey body now newId
  | none => bookingsCore st idemKey body now newId

/-- Post-validation query of `GET /woki/discover` (`DiscoverQuerySchema`). -/
structure DiscoverQuery where
  restaurantId : String
  sectorId : String
  dayBase : Int
  partySize : Int
  window : Option Slot
  limit : Option Nat
deriving DecidableEq

/-- Responses of the discover handler. -/
inductive DiscoverResponse
  | ok (slotMinutes durationMinutes : Int) (candidates : List Candidate)
  | notFound404
  | noCapacity409
deriving DecidableEq

/-- The `discover` handler (routes lines 33-68): duration from the party
size, 404 on unknown restaurant or sector, candidates from
`findCandidates` over the restaurant windows (or the explicit window),
409 when there are none, otherwise the candidate list truncated to
`limit || 10` (a falsy limit of 0 also defaults to 10). -/
def discover (st : SysState) (q : DiscoverQuery) : DiscoverResponse :=
  let duration := getDurationForPartySize q.partySize
  match getRestaurant st q.restaurantId with
  | none => DiscoverResponse.notFound404
  | some restaurant =>
    match getSector st q.sectorId with
    | none => DiscoverResponse.notFound404
    | some _ =>
      let tables := getTables st q.sectorId
      let bookings := getAllBookings st
      let searchWindows := match q.window with
        | some w => [w]
        | none => restaurant.windows
      let candidates := findCandidates tables bookings q.dayBase q.partySize duration searchWindows
      if candidates.isEmpty then DiscoverResponse.noCapacity409
      else
        let limit := match q.limit with
          | some l => if l = 0 then 10 else l
          | none => 10
        DiscoverResponse.ok 15 duration (candidates.take limit)

/-- Gap lists that are chained: each gap stops before the next starts; for
lists of non-empty intervals this is exactly "pairwise disjoint and sorted
by start". -/
def ChainedGaps (l : List Slot) : Prop :=
  l.Pairwise (fun g1 g2 => g1.stop ≤ g2.start)

/-- Sorted by start time. -/
def SortedByStart (l : List Slot) : Prop :=
  l.Pairwise (fun g1 g2 => g1.start ≤ g2.start)

/-- Pairwise disjointness of half-open intervals, in either order, as the
claims state it for search windows. -/
def WindowsDisjoint (ws : List Slot) : Prop :=
  ws.Pairwise (fun w1 w2 => w1.stop ≤ w2.start ∨ w2.stop ≤ w1.start)

/-- Raw intersection of two intervals: later start, earlier stop. -/
def interRaw (a b : Slot) : Slot :=
  ⟨max a.start b.start, min a.stop b.stop⟩

/-- Intersection of a non-empty family, left fold of `interRaw`. -/
def bigInter (p : Slot) (ps : List Slot) : Slot :=
  ps.foldl interRaw p

/-- A non-empty interval of at least `d` minutes, the condition
`intersectGaps` keeps intermediate overlaps under. -/
def GoodSlot (d : Int) (s : Slot) : Prop :=
  s.start < s.stop ∧ d ≤ s.stop - s.start


/-- A table used by concrete check cases. -/
def tbl1 : Table := ⟨"T1", "S1", 2, 2⟩

/-- A 2-4 seat table used by concrete check cases. -/
def tbl2 : Table := ⟨"T2", "S1", 2, 4⟩

/-- A 2-2 seat table used by concrete check cases. -/
def tbl5 : Table := ⟨"T5", "S1", 2, 2⟩

/-- A restaurant whose single service window is 00:00-01:30. -/
def rest1 : Restaurant := ⟨"R1", [⟨0, 90⟩]⟩

/-- The sector of the concrete check cases. -/
def sect1 : Sector := ⟨"S1", "R1"⟩

/-- A store state before any booking: one 2-seat table, no bookings. -/
def st3Before : SysState := ⟨some rest1, some sect1, [tbl1], [], [], []⟩

/-- A booking-creation body for a party of 2 on day 0 with no explicit window. -/
def body3 : BookingBody := ⟨"R1", "S1", 2, 0, none⟩

/-- The booking the first call on `st3Before` commits. -/
def bk3 : Booking :=
  ⟨"BK1", "R1", "S1", ["T1"], 2, 75, 0, 75, BookingStatus.confirmed, 0, 0⟩

/-- The store state after that first successful call under key "K". -/
def st3After : SysState :=
  ⟨some rest1, some sect1, [tbl1], [("BK1", bk3)], [], [("K", ⟨bk3, 86400000⟩)]⟩

/-- A store with a higher-waste table listed before a lower-waste one. -/
def st7 : SysState := ⟨some rest1, some sect1, [tbl2, tbl5], [], [], []⟩

/-- A discover query for a party of 2 on day 0 with default limit. -/
def q7 : DiscoverQuery := ⟨"R1", "S1", 0, 2, none, none⟩

/-- The candidate list `discover st7 q7` returns. -/
def cands7 : List Candidate :=
  [⟨CandKind.single, ["T2"], 0, 75, 2⟩, ⟨CandKind.single, ["T2"], 15, 90, 2⟩,
   ⟨CandKind.single, ["T5"], 0, 75, 0⟩, ⟨CandKind.single, ["T5"], 15, 90, 0⟩]

/-- A booking on table T1 over minutes 30-75 of day 0, used as witness data. -/
def bkw1 : Booking :=
  ⟨"B1", "R1", "S1", ["T1"], 2, 45, 30, 75, BookingStatus.confirmed, 0, 0⟩

theorem mapGet_mapSet_self {κ β : Type} [DecidableEq κ] (m : List (κ × β)) (key : κ) (v : β) :
    mapGet (mapSet m key v) key = some v := by
  induction m with
  | nil => simp [mapSet, mapGet]
  | cons p rest ih =>
      obtain ⟨k2, v2⟩ := p
      by_cases h : k2 = key
      · simp [mapSet, h, mapGet]
      · simp [mapSet, h, mapGet, ih]

theorem mapGet_mapSet_ne {κ β : Type} [DecidableEq κ] (m : List (κ × β)) (key k2 : κ) (v : β)
    (h : k2 ≠ key) : mapGet (mapSet m key v) k2 = mapGet m k2 := by
  have h2 : key ≠ k2 := Ne.symm h
  induction m with
  | nil => simp [mapSet, mapGet, h2]
  | cons p rest ih =>
      obtain ⟨k3, v3⟩ := p
      by_cases h3 : k3 = key
      · subst h3
        simp [mapSet, mapGet, h2, h]
      · by_cases h4 : k3 = k2 <;> simp [mapSet, mapGet, h3, h4, h, ih]

theorem mapGet_mapErase_self {κ β : Type} [DecidableEq κ] (m : List (κ × β)) (key : κ) :
    mapGet (mapErase m key) key = none := by
  induction m with
  | nil => simp [mapErase, mapGet]
  | cons p rest ih =>
      obtain ⟨k2, v⟩ := p
      by_cases h : k2 = key
      · simp [mapErase, h, ih]
      · simp [mapErase, h, mapGet, ih]

theorem mapGet_mapErase_ne {κ β : Type} [DecidableEq κ] (m : List (κ × β)) (key k2 : κ)
    (h : k2 ≠ key) : mapGet (mapErase m key) k2 = mapGet m k2 := by
  induction m with
  | nil => simp [mapErase]
  | cons p rest ih =>
      obtain ⟨k3, v⟩ := p
      by_cases h3 : k3 = key
      · subst h3
        simp [mapErase, mapGet, Ne.symm h, ih]
      · by_cases h4 : k3 = k2 <;> simp [mapErase, mapGet, h3, h4, h, ih]

theorem acquireLock_eq_none {locks : List (String × Int)} {key : String} {ttl now : Int}
    (hm : mapGet locks key = none) :
    acquireLock locks key ttl now = (true, mapSet locks key (now + ttl)) := by
  unfold acquireLock
  rw [hm]

theorem acquireLock_eq_some {locks : List (String × Int)} {key : String} {ttl now e : Int}
    (hm : mapGet locks key = some e) :
    acquireLock locks key ttl now =
      if e ≠ 0 ∧ now < e then (false, locks) else (true, mapSet locks key (now + ttl)) := by
  unfold acquireLock
  rw [hm]

/-- C2: `acquireLock` succeeds and stores expiry `now + ttl` exactly when no
entry with a still-future expiry exists, otherwise fails leaving the map
unchanged; `releaseLock` deletes its key unconditionally and touches no
other key; and of two acquisitions of the same key, the second within the
first's ttl and without an intervening release, exactly the first
succeeds.  `0 ≤ now` reflects that `Date.now()` is non-negative (it also
neutralises the `if (existing && ...)` truthiness edge at expiry 0). -/
theorem acquireLock_releaseLock_spec :
    (∀ (locks : List (String × Int)) (key : String) (ttl now : Int), 0 ≤ now →
      ((acquireLock locks key ttl now).1 = true ↔
        ¬ ∃ e, mapGet locks key = some e ∧ now < e)) ∧
    (∀ (locks : List (String × Int)) (key : String) (ttl now : Int),
      ((acquireLock locks key ttl now).1 = true →
        (acquireLock locks key ttl now).2 = mapSet locks key (now + ttl)) ∧
      ((acquireLock locks key ttl now).1 = false →
        (acquireLock locks key ttl now).2 = locks)) ∧
    (∀ (locks : List (String × Int)) (key : String),
      mapGet (releaseLock locks key) key = none ∧
      ∀ k2, k2 ≠ key → mapGet (releaseLock locks key) k2 = mapGet locks k2) ∧
    (∀ (locks : List (String × Int)) (key : String) (ttl1 ttl2 now1 now2 : Int),
      0 ≤ now1 → now1 ≤ now2 → now2 < now1 + ttl1 →
      (acquireLock locks key ttl1 now1).1 = true →
      (acquireLock ((acquireLock locks key ttl1 now1).2) key ttl2 now2).1 = false) := by
  have hsucc : ∀ (locks : List (String × Int)) (key : String) (ttl now : Int),
      (acquireLock locks key ttl now).1 = true →
      (acquireLock locks key ttl now).2 = mapSet locks key (now + ttl) := by
    intro locks key ttl now h
    cases hm : mapGet locks key with
    | none => rw [acquireLock_eq_none hm]
    | some e =>
        rw [acquireLock_eq_some hm] at h ⊢
        by_cases hc : e ≠ 0 ∧ now < e
        · rw [if_pos hc] at h
          exact Bool.noConfusion h
        · rw [if_neg hc]
  refine ⟨?_, ?_, ?_, ?_⟩
  · intro locks key ttl now hnow
    cases hm : mapGet locks key with
    | none =>
        rw [acquireLock_eq_none hm]
        simp
    | some e =>
        rw [acquireLock_eq_some hm]
        by_cases hc : e ≠ 0 ∧ now < e
        · rw [if_pos hc]
          simp only [Bool.false_eq_true, false_iff, not_not]
          exact ⟨e, rfl, hc.2⟩
        · rw [if_neg hc]
          simp only [true_iff]
          rintro ⟨e2, he2, hlt⟩
          rw [Option.some.injEq] at he2
          subst he2
          rcases not_and_or.mp hc with h0 | h1
          · rw [not_not] at h0
            omega
          · omega
  · intro locks key ttl now
    refine ⟨hsucc locks key ttl now, ?_⟩
    intro h
    cases hm : mapGet locks key with
    | none =>
        rw [acquireLock_eq_none hm] at h
        exact Bool.noConfusion h
    | some e =>
        rw [acquireLock_eq_some hm] at h ⊢
        by_cases hc : e ≠ 0 ∧ now < e
        · rw [if_pos hc]
        · rw [if_neg hc] at h
          exact Bool.noConfusion h
  · intro locks key
    exact ⟨mapGet_mapErase_self locks key,
           fun k2 h => mapGet_mapErase_ne locks key k2 h⟩
  · intro locks key ttl1 ttl2 now1 now2 h0 h12 hin hfst
    rw [hsucc locks key ttl1 now1 hfst]
    have hm : mapGet (mapSet locks key (now1 + ttl1)) key = some (now1 + ttl1) :=
      mapGet_mapSet_self locks key (now1 + ttl1)
    rw [acquireLock_eq_some hm]
    have hc : now1 + ttl1 ≠ 0 ∧ now2 < now1 + ttl1 := by omega
    rw [if_pos hc]

/-- Witness for C2 at concrete inputs: a fresh acquisition of key "k" at
time 0 succeeds, and a second acquisition at time 4999 (within the 5000ms
ttl) fails. -/
theorem acquireLock_releaseLock_spec_witness :
    (acquireLock [] "k" 5000 0).1 = true ∧
    (acquireLock ((acquireLock [] "k" 5000 0).2) "k" 5000 4999).1 = false := by
  refine ⟨?_, ?_⟩
  · exact (acquireLock_releaseLock_spec.1 [] "k" 5000 0 (by decide)).mpr (by decide)
  · exact acquireLock_releaseLock_spec.2.2.2 [] "k" 5000 5000 0 4999
      (by decide) (by decide) (by decide)
      ((acquireLock_releaseLock_spec.1 [] "k" 5000 0 (by decide)).mpr (by decide))

theorem gapStarts_eq_range : ∀ (n : Nat) (cur : Int),
    gapStarts cur n = (List.range n).map (fun i : Nat => cur + 15 * (i : Int))
  | 0, cur => by simp [gapStarts]
  | n + 1, cur => by
      rw [gapStarts, gapStarts_eq_range n (cur + 15), List.range_succ_eq_map,
        List.map_cons, List.map_map]
      refine congrArg₂ _ (by simp) ?_
      refine List.map_congr_left ?_
      intro i _
      simp only [Function.comp_apply]
      push_cast
      ring

theorem mem_gapStarts {s : Int} : ∀ {n : Nat} {cur : Int}, s ∈ gapStarts cur n →
    ∃ i : Nat, i < n ∧ s = cur + 15 * (i : Int) := by
  intro n
  induction n with
  | zero => intro cur h; exact absurd h (by simp [gapStarts])
  | succ n ih =>
      intro cur h
      rw [gapStarts, List.mem_cons] at h
      rcases h with h | h
      · exact ⟨0, Nat.succ_pos n, by simp [h]⟩
      · obtain ⟨i, hin, hsi⟩ := ih h
        refine ⟨i + 1, by omega, ?_⟩
        rw [hsi]
        push_cast
        ring

theorem numSlots_succ (cur last : Int) (h : cur ≤ last) :
    numSlots cur last = numSlots (cur + 15) last + 1 := by
  unfold numSlots
  by_cases h2 : cur + 15 ≤ last
  · rw [if_pos h, if_pos h2]
    have h3 : (last - cur).toNat = (last - (cur + 15)).toNat + 15 := by omega
    rw [h3, Nat.add_div_right _ (by norm_num)]
  · rw [if_pos h, if_neg h2]
    have h3 : (last - cur).toNat < 15 := by omega
    rw [Nat.div_eq_of_lt h3]

/-- The iteration-count model of the discretization loop satisfies exactly
the defining equations of `while (current <= lastStart) - push - step 15`. -/
theorem gapStarts_loop_eq (cur last : Int) :
    gapStarts cur (numSlots cur last) =
      if cur ≤ last then cur :: gapStarts (cur + 15) (numSlots (cur + 15) last) else [] := by
  by_cases h : cur ≤ last
  · rw [if_pos h, numSlots_succ cur last h, gapStarts]
  · rw [if_neg h]
    unfold numSlots
    rw [if_neg h]
    rfl

theorem gapCandidates_stop_le (d : Int) (ids : List String) (kind : CandKind)
    (waste : Int) (gap : Slot) :
    ∀ c ∈ gapCandidates d ids kind waste gap, c.stop ≤ gap.stop := by
  intro c hc
  unfold gapCandidates at hc
  rw [List.mem_map] at hc
  obtain ⟨s, hs, hcs⟩ := hc
  obtain ⟨i, hin, hsi⟩ := mem_gapStarts hs
  have hstop : c.stop = s + d := by rw [← hcs]
  rw [hstop, hsi]
  unfold numSlots at hin
  by_cases hle : gap.start ≤ gap.stop - d
  · rw [if_pos hle] at hin
    have hdiv := Nat.div_mul_le_self (gap.stop - d - gap.start).toNat 15
    have hi15 : i ≤ (gap.stop - d - gap.start).toNat / 15 := by omega
    have hmul : 15 * i ≤ (gap.stop - d - gap.start).toNat := by omega
    omega
  · rw [if_neg hle] at hin
    omega

theorem gapCandidates_start_ge (d : Int) (ids : List String) (kind : CandKind)
    (waste : Int) (gap : Slot) :
    ∀ c ∈ gapCandidates d ids kind waste gap, gap.start ≤ c.start := by
  intro c hc
  unfold gapCandidates at hc
  rw [List.mem_map] at hc
  obtain ⟨s, hs, hcs⟩ := hc
  obtain ⟨i, hin, hsi⟩ := mem_gapStarts hs
  have hstart : c.start = s := by rw [← hcs]
  rw [hstart, hsi]
  have h15 : (0 : Int) ≤ 15 * (i : Int) := by positivity
  omega

/-- C6: every candidate emitted by `discretizeGaps` for a gap ends no later
than that gap's stop, and the candidate start times of one gap are the
arithmetic sequence from the gap's start with step 15. -/
theorem discretizeGaps_spec (gaps : List Slot) (d : Int) (ids : List String)
    (kind : CandKind) (waste : Int) :
    discretizeGaps gaps d ids kind waste = gaps.flatMap (gapCandidates d ids kind waste) ∧
    (∀ gap ∈ gaps, ∀ c ∈ gapCandidates d ids kind waste gap, c.stop ≤ gap.stop) ∧
    (∀ gap ∈ gaps, (gapCandidates d ids kind waste gap).map Candidate.start =
      (List.range (numSlots gap.start (gap.stop - d))).map
        (fun i : Nat => gap.start + 15 * (i : Int))) := by
  refine ⟨rfl, ?_, ?_⟩
  · intro gap _
    exact gapCandidates_stop_le d ids kind waste gap
  · intro gap _
    unfold gapCandidates
    rw [List.map_map]
    have h1 : (Candidate.start ∘ fun s =>
        (⟨kind, ids, s, s + d, waste⟩ : Candidate)) = fun s : Int => s := rfl
    rw [h1, List.map_id', gapStarts_eq_range]

/-- Witness for C6: in the gap `[600, 690)` with duration 60, the candidate
starting at 630 ends at 690, not past the gap's stop. -/
theorem discretizeGaps_spec_witness :
    ((⟨600, 690⟩ : Slot) ∈ [(⟨600, 690⟩ : Slot)]) ∧
    (⟨CandKind.single, ["T1"], 630, 690, 0⟩ : Candidate) ∈
      gapCandidates 60 ["T1"] CandKind.single 0 ⟨600, 690⟩ ∧
    (⟨CandKind.single, ["T1"], 630, 690, 0⟩ : Candidate).stop ≤ (690 : Int) := by
  refine ⟨by decide, by decide, ?_⟩
  exact (discretizeGaps_spec [⟨600, 690⟩] 60 ["T1"] CandKind.single 0).2.1
    ⟨600, 690⟩ (by decide) _ (by decide)

theorem findGaps_eq (tableId : String) (bookings : List Booking) (dayBase duration : Int)
    (windows : List Slot) :
    findGaps tableId bookings dayBase duration windows =
      (if windows.isEmpty then [(⟨dayBase, dayBase + 1439⟩ : Slot)]
       else windows.map (fun w => ⟨dayBase + w.start, dayBase + w.stop⟩)).flatMap
        (fun w => sweepWindow duration w.start w.stop w.start
          (((bookings.filter (fun b =>
              b.tableIds.contains tableId && b.status != BookingStatus.cancelled)).map
             (fun b => (⟨b.start, b.stop⟩ : Slot))).insertionSort
            (fun a b => a.start ≤ b.start))) := rfl

theorem sweepWindow_bounds (d wlo whi : Int) :
    ∀ (bs : List Slot) (cur : Int), ∀ g ∈ sweepWindow d wlo whi cur bs,
      cur ≤ g.start ∧ g.start < g.stop ∧ d ≤ g.stop - g.start ∧ g.stop ≤ whi := by
  intro bs
  induction bs with
  | nil =>
      intro cur g hg
      rw [sweepWindow] at hg
      by_cases hc : cur < whi ∧ d ≤ whi - cur
      · rw [if_pos hc, List.mem_singleton] at hg
        subst hg
        simp only
        omega
      · rw [if_neg hc] at hg
        exact absurd hg (List.not_mem_nil g)
  | cons b rest ih =>
      intro cur g hg
      rw [sweepWindow] at hg
      by_cases h1 : b.stop < wlo
      · rw [if_pos h1] at hg
        exact ih cur g hg
      · rw [if_neg h1] at hg
        by_cases h2 : whi < b.start
        · rw [if_pos h2] at hg
          by_cases hc : cur < whi ∧ d ≤ whi - cur
          · rw [if_pos hc, List.mem_singleton] at hg
            subst hg
            simp only
            omega
          · rw [if_neg hc] at hg
            exact absurd hg (List.not_mem_nil g)
        · rw [if_neg h2, List.mem_append] at hg
          rcases hg with hg | hg
          · by_cases hc : cur < b.start ∧ d ≤ b.start - cur
            · rw [if_pos hc, List.mem_singleton] at hg
              subst hg
              simp only
              omega
            · rw [if_neg hc] at hg
              exact absurd hg (List.not_mem_nil g)
          · have hcur : cur ≤ (if cur < b.stop then b.stop else cur) := by
              split <;> omega
            have := ih (if cur < b.stop then b.stop else cur) g hg
            omega

theorem sweepWindow_chained (d wlo whi : Int) :
    ∀ (bs : List Slot) (cur : Int), (∀ b ∈ bs, b.start ≤ b.stop) →
      ChainedGaps (sweepWindow d wlo whi cur bs) := by
  intro bs
  induction bs with
  | nil =>
      intro cur _
      rw [ChainedGaps, sweepWindow]
      split
      · exact List.pairwise_singleton _ _
      · exact List.Pairwise.nil
  | cons b rest ih =>
      intro cur hval
      have hvb : b.start ≤ b.stop := hval b (List.mem_cons_self b rest)
      have hvrest : ∀ b2 ∈ rest, b2.start ≤ b2.stop :=
        fun b2 h2 => hval b2 (List.mem_cons_of_mem b h2)
      rw [ChainedGaps, sweepWindow]
      by_cases h1 : b.stop < wlo
      · rw [if_pos h1]
        exact ih cur hvrest
      · rw [if_neg h1]
        by_cases h2 : whi < b.start
        · rw [if_pos h2]
          split
          · exact List.pairwise_singleton _ _
          · exact List.Pairwise.nil
        · rw [if_neg h2]
          rw [List.pairwise_append]
          refine ⟨?_, ih _ hvrest, ?_⟩
          · split
            · exact List.pairwise_singleton _ _
            · exact List.Pairwise.nil
          · intro x hx y hy
            by_cases hc : cur < b.start ∧ d ≤ b.start - cur
            · rw [if_pos hc, List.mem_singleton] at hx
              subst hx
              have hb := sweepWindow_bounds d wlo whi rest
                (if cur < b.stop then b.stop else cur) y hy
              simp only
              split at hb <;> omega
            · rw [if_neg hc] at hx
              exact absurd hx (List.not_mem_nil x)

theorem chained_flatMap (ws : List Slot) (f : Slot → List Slot)
    (hwin : ws.Pairwise (fun w1 w2 => w1.stop ≤ w2.start))
    (hin : ∀ w ∈ ws, ∀ g ∈ f w, w.start ≤ g.start ∧ g.stop ≤ w.stop)
    (hch : ∀ w ∈ ws, ChainedGaps (f w)) :
    ChainedGaps (ws.flatMap f) := by
  induction ws with
  | nil => exact List.Pairwise.nil
  | cons w rest ih =>
      rw [List.flatMap_cons, ChainedGaps, List.pairwise_append]
      rw [List.pairwise_cons] at hwin
      refine ⟨hch w (List.mem_cons_self w rest), ?_, ?_⟩
      · exact ih hwin.2 (fun w2 h2 => hin w2 (List.mem_cons_of_mem w h2))
          (fun w2 h2 => hch w2 (List.mem_cons_of_mem w h2))
      · intro x hx y hy
        rw [List.mem_flatMap] at hy
        obtain ⟨w2, hw2, hy2⟩ := hy
        have h1 := (hin w (List.mem_cons_self w rest) x hx).2
        have h2 := (hin w2 (List.mem_cons_of_mem w hw2) y hy2).1
        have h3 := hwin.1 w2 hw2
        omega

theorem findGaps_tableBookings_valid (tableId : String) (bookings : List Booking)
    (hval : ∀ b ∈ bookings, b.start ≤ b.stop) :
    ∀ s ∈ ((bookings.filter (fun b =>
        b.tableIds.contains tableId && b.status != BookingStatus.cancelled)).map
          (fun b => (⟨b.start, b.stop⟩ : Slot))).insertionSort
        (fun a b => a.start ≤ b.start), s.start ≤ s.stop := by
  intro s hs
  rw [List.mem_insertionSort, List.mem_map] at hs
  obtain ⟨b, hb, hsb⟩ := hs
  rw [List.mem_filter] at hb
  subst hsb
  exact hval b hb.1

/-- C1 (amended): for valid reservations (`start ≤ stop`, the data model's
interval invariant) and a non-empty list of search windows that is
disjoint AND given in ascending order, `findGaps` returns gaps that are
chained (hence pairwise disjoint and sorted by start), each non-empty and
at least `duration` minutes long, and each contained in one of the given
windows. -/
theorem findGaps_sorted_disjoint (tableId : String) (bookings : List Booking)
    (dayBase duration : Int) (windows : List Slot)
    (hval : ∀ b ∈ bookings, b.start ≤ b.stop)
    (hwin : windows.Pairwise (fun w1 w2 => w1.stop ≤ w2.start))
    (hne : windows ≠ []) :
    ChainedGaps (findGaps tableId bookings dayBase duration windows) ∧
    ∀ g ∈ findGaps tableId bookings dayBase duration windows,
      g.start < g.stop ∧ duration ≤ g.stop - g.start ∧
      ∃ w ∈ windows, dayBase + w.start ≤ g.start ∧ g.stop ≤ dayBase + w.stop := by
  have hie : windows.isEmpty = false := by
    cases windows with
    | nil => exact absurd rfl hne
    | cons w ws => rfl
  rw [findGaps_eq, hie, if_neg (by simp)]
  constructor
  · refine chained_flatMap _ _ ?_ ?_ ?_
    · rw [List.pairwise_map]
      refine hwin.imp ?_
      intro w1 w2 h
      simp only
      omega
    · intro w _ g hg
      have hb := sweepWindow_bounds duration w.start w.stop _ w.start g hg
      omega
    · intro w _
      exact sweepWindow_chained duration w.start w.stop _ w.start
        (findGaps_tableBookings_valid tableId bookings hval)
  · intro g hg
    rw [List.mem_flatMap] at hg
    obtain ⟨w2, hw2, hgw⟩ := hg
    rw [List.mem_map] at hw2
    obtain ⟨w, hw, hww⟩ := hw2
    have hb := sweepWindow_bounds duration w2.start w2.stop _ w2.start g hgw
    subst hww
    exact ⟨by omega, by omega, w, hw, by simp only at hb ⊢; omega⟩

/-- C1 counterexample: for the pairwise-disjoint (but descending) window
list `[[100,200), [0,50)]` and no reservations, `findGaps` returns the two
windows in the given order, which is not sorted by start time — the claim
promises sortedness for every disjoint window list. -/
theorem findGaps_unsorted_windows_cex :
    WindowsDisjoint [(⟨100, 200⟩ : Slot), ⟨0, 50⟩] ∧
    findGaps "T1" [] 0 1 [⟨100, 200⟩, ⟨0, 50⟩] = [⟨100, 200⟩, ⟨0, 50⟩] ∧
    ¬ SortedByStart (findGaps "T1" [] 0 1 [⟨100, 200⟩, ⟨0, 50⟩]) := by
  unfold WindowsDisjoint SortedByStart
  refine ⟨?_, ?_, ?_⟩ <;> decide

/-- Witness for C1 (amended) at concrete inputs: one booking on T1 over
minutes 30-75 and the ascending disjoint windows `[0,100)` and
`[200,300)`. -/
theorem findGaps_sorted_disjoint_witness :
    ChainedGaps (findGaps "T1" [bkw1] 0 30 [⟨0, 100⟩, ⟨200, 300⟩]) ∧
    ∀ g ∈ findGaps "T1" [bkw1] 0 30 [⟨0, 100⟩, ⟨200, 300⟩],
      g.start < g.stop ∧ (30 : Int) ≤ g.stop - g.start ∧
      ∃ w ∈ [(⟨0, 100⟩ : Slot), ⟨200, 300⟩],
        0 + w.start ≤ g.start ∧ g.stop ≤ 0 + w.stop :=
  findGaps_sorted_disjoint "T1" [bkw1] 0 30 [⟨0, 100⟩, ⟨200, 300⟩]
    (by decide) (by decide) (by decide)

/-- C10: with an empty `windows` argument `findGaps` searches
`[dayBase + 0, dayBase + 1439]`, i.e. 00:00-23:59 of the date, so no gap
(and no discretized candidate) starts before 00:00 or ends after 23:59;
the final minute 23:59-24:00 of the day is never available. -/
theorem findGaps_noWindows_clamped (tableId : String) (bookings : List Booking)
    (dayBase duration : Int) (ids : List String) (kind : CandKind) (waste : Int) :
    (∀ g ∈ findGaps tableId bookings dayBase duration [],
      dayBase ≤ g.start ∧ g.stop ≤ dayBase + 1439) ∧
    (∀ c ∈ discretizeGaps (findGaps tableId bookings dayBase duration [])
        duration ids kind waste,
      dayBase ≤ c.start ∧ c.stop ≤ dayBase + 1439) := by
  have hgap : ∀ g ∈ findGaps tableId bookings dayBase duration [],
      dayBase ≤ g.start ∧ g.stop ≤ dayBase + 1439 := by
    intro g hg
    rw [findGaps_eq] at hg
    rw [show (List.isEmpty ([] : List Slot)) = true from rfl, if_pos rfl] at hg
    rw [List.flatMap_cons, List.flatMap_nil, List.append_nil] at hg
    have hb := sweepWindow_bounds duration dayBase (dayBase + 1439) _ dayBase g hg
    omega
  refine ⟨hgap, ?_⟩
  intro c hc
  unfold discretizeGaps at hc
  rw [List.mem_flatMap] at hc
  obtain ⟨gap, hgap2, hcg⟩ := hc
  have h1 := gapCandidates_stop_le duration ids kind waste gap c hcg
  have h2 := gapCandidates_start_ge duration ids kind waste gap c hcg
  have h3 := hgap gap hgap2
  omega

/-- Witness for C10: with no windows, no bookings and duration 60 the only
gap is `[0, 1439)`, inside 00:00-23:59 of day 0. -/
theorem findGaps_noWindows_clamped_witness :
    (⟨0, 1439⟩ : Slot) ∈ findGaps "T1" [] 0 60 [] ∧
    (0 : Int) ≤ (⟨0, 1439⟩ : Slot).start ∧ (⟨0, 1439⟩ : Slot).stop ≤ 0 + 1439 := by
  refine ⟨by decide, ?_⟩
  exact (findGaps_noWindows_clamped "T1" [] 0 60 ["T1"] CandKind.single 0).1
    ⟨0, 1439⟩ (by decide)

theorem strCmp_self : ∀ s : List Char, strCmp s s = 0
  | [] => rfl
  | a :: s => by
      rw [strCmp, if_neg (lt_irrefl a), if_neg (lt_irrefl a)]
      exact strCmp_self s

theorem strCmp_antisymm : ∀ s t : List Char, strCmp t s = -strCmp s t
  | [], [] => rfl
  | [], _ :: _ => by norm_num [strCmp]
  | _ :: _, [] => by norm_num [strCmp]
  | a :: s, b :: t => by
      rw [strCmp, strCmp]
      rcases lt_trichotomy a b with h | h | h
      · have hba : ¬ b < a := asymm h
        simp only [if_pos h, if_neg hba]
        norm_num
      · subst h
        simp only [if_neg (lt_irrefl a)]
        exact strCmp_antisymm s t
      · have hab : ¬ a < b := asymm h
        simp only [if_pos h, if_neg hab]

theorem strCmp_trans : ∀ s t u : List Char,
    strCmp s t ≤ 0 → strCmp t u ≤ 0 → strCmp s u ≤ 0
  | [], _, u, _, _ => by
      cases u with
      | nil => norm_num [strCmp]
      | cons c u => norm_num [strCmp]
  | a :: s, [], u, h1, _ => by
      rw [strCmp] at h1
      omega
  | _ :: _, _ :: t, [], _, h2 => by
      rw [strCmp] at h2
      omega
  | a :: s, b :: t, c :: u, h1, h2 => by
      rw [strCmp] at h1 h2 ⊢
      by_cases hab : a < b
      · by_cases hbc : b < c
        · have hac : a < c := lt_trans hab hbc
          simp only [if_pos hac]
          norm_num
        · by_cases hcb : c < b
          · simp only [if_neg hbc, if_pos hcb] at h2
            omega
          · have hbc2 : b = c := le_antisymm (not_lt.mp hcb) (not_lt.mp hbc)
            subst hbc2
            simp only [if_pos hab]
            norm_num
      · by_cases hba : b < a
        · simp only [if_neg hab, if_pos hba] at h1
          omega
        · have hab2 : a = b := le_antisymm (not_lt.mp hba) (not_lt.mp hab)
          subst hab2
          simp only [if_neg hab] at h1
          by_cases hac : a < c
          · simp only [if_pos hac]
            norm_num
          · by_cases hca : c < a
            · simp only [if_neg hac, if_pos hca] at h2
              omega
            · have hac2 : a = c := le_antisymm (not_lt.mp hca) (not_lt.mp hac)
              subst hac2
              simp only [if_neg hac] at h2 ⊢
              exact strCmp_trans s t u h1 h2

theorem candCompare_self (a : Candidate) : candCompare a a = 0 := by
  unfold candCompare
  rw [if_neg (by simp), if_neg (by simp), if_neg (by simp)]
  exact strCmp_self _

theorem candCompare_antisymm (a b : Candidate) : candCompare b a = -candCompare a b := by
  unfold candCompare
  by_cases hk : a.kind ≠ b.kind
  · rw [if_pos hk, if_pos (Ne.symm hk)]
    cases hA : a.kind <;> cases hB : b.kind <;>
      simp_all
  · rw [if_neg hk, if_neg (fun h => hk (Ne.symm h))]
    by_cases hw : a.waste ≠ b.waste
    · rw [if_pos hw, if_pos (Ne.symm hw)]
      omega
    · rw [if_neg hw, if_neg (fun h => hw (Ne.symm h))]
      by_cases hs : a.start ≠ b.start
      · rw [if_pos hs, if_pos (Ne.symm hs)]
        by_cases hlt : a.start < b.start
        · rw [if_pos hlt, if_neg (by omega)]
          norm_num
        · have hlt2 : b.start < a.start := by
            rcases lt_or_eq_of_le (not_lt.mp hlt) with h | h
            · exact h
            · exact absurd h.symm hs
          rw [if_neg hlt, if_pos hlt2]
      · rw [if_neg hs, if_neg (fun h => hs (Ne.symm h))]
        exact strCmp_antisymm _ _

theorem candCompare_le_iff (a b : Candidate) :
    candCompare a b ≤ 0 ↔
      (a.kind = CandKind.single ∧ b.kind = CandKind.combo) ∨
      (a.kind = b.kind ∧ (a.waste < b.waste ∨ (a.waste = b.waste ∧
        (a.start < b.start ∨ (a.start = b.start ∧
          strCmp (String.intercalate "," a.tableIds).toList
            (String.intercalate "," b.tableIds).toList ≤ 0))))) := by
  unfold candCompare
  by_cases hk : a.kind ≠ b.kind
  · rw [if_pos hk]
    cases hA : a.kind <;> cases hB : b.kind <;> simp_all
  · rw [if_neg hk]
    push_neg at hk
    by_cases hw : a.waste ≠ b.waste
    · rw [if_pos hw]
      constructor
      · intro h
        right
        exact ⟨hk, Or.inl (by omega)⟩
      · rintro (⟨h1, h2⟩ | ⟨h1, h2 | ⟨h2, h3⟩⟩)
        · rw [hk, h2] at h1
          exact absurd h1 (by simp)
        · omega
        · omega
    · rw [if_neg hw]
      push_neg at hw
      by_cases hs : a.start ≠ b.start
      · rw [if_pos hs]
        constructor
        · intro h
          right
          refine ⟨hk, Or.inr ⟨hw, Or.inl ?_⟩⟩
          by_cases hlt : a.start < b.start
          · exact hlt
          · rw [if_neg hlt] at h
            omega
        · rintro (⟨h1, h2⟩ | ⟨h1, h2 | ⟨h2, h3 | ⟨h3, h4⟩⟩⟩)
          · rw [hk, h2] at h1
            exact absurd h1 (by simp)
          · omega
          · rw [if_pos h3]
            norm_num
          · omega
      · rw [if_neg hs]
        push_neg at hs
        constructor
        · intro h
          exact Or.inr ⟨hk, Or.inr ⟨hw, Or.inr ⟨hs, h⟩⟩⟩
        · rintro (⟨h1, h2⟩ | ⟨h1, h2 | ⟨h2, h3 | ⟨h3, h4⟩⟩⟩)
          · rw [hk, h2] at h1
            exact absurd h1 (by simp)
          · omega
          · omega
          · exact h4

theorem candCompare_trans {a b c : Candidate} (h1 : candCompare a b ≤ 0)
    (h2 : candCompare b c ≤ 0) : candCompare a c ≤ 0 := by
  rw [candCompare_le_iff] at h1 h2 ⊢
  rcases h1 with ⟨ha1, hb1⟩ | ⟨hk1, hrest1⟩
  · rcases h2 with ⟨hb2, hc2⟩ | ⟨hk2, hrest2⟩
    · rw [hb1] at hb2
      exact absurd hb2 (by simp)
    · exact Or.inl ⟨ha1, hk2 ▸ hb1⟩
  · rcases h2 with ⟨hb2, hc2⟩ | ⟨hk2, hrest2⟩
    · exact Or.inl ⟨hk1 ▸ hb2, hc2⟩
    · refine Or.inr ⟨hk1.trans hk2, ?_⟩
      rcases hrest1 with hw1 | ⟨hw1, hrest1⟩
      · rcases hrest2 with hw2 | ⟨hw2, hrest2⟩
        · exact Or.inl (by omega)
        · exact Or.inl (by omega)
      · rcases hrest2 with hw2 | ⟨hw2, hrest2⟩
        · exact Or.inl (by omega)
        · refine Or.inr ⟨by omega, ?_⟩
          rcases hrest1 with hs1 | ⟨hs1, hstr1⟩
          · rcases hrest2 with hs2 | ⟨hs2, hstr2⟩
            · exact Or.inl (by omega)
            · exact Or.inl (by omega)
          · rcases hrest2 with hs2 | ⟨hs2, hstr2⟩
            · exact Or.inl (by omega)
            · exact Or.inr ⟨by omega, strCmp_trans _ _ _ hstr1 hstr2⟩

/-- C4 counterexample: the comparator ignores the `end` field (and only
sees kind, waste, start, and the comma-joined table ids), so the two
distinct candidates below compare equal — the order is not a strict total
order on candidates — and swapping the list changes which candidate
`selectBestCandidate` returns (the stable sort keeps the first of a tied
pair). -/
theorem selectBestCandidate_not_strict_cex :
    candCompare ⟨CandKind.single, ["T1"], 0, 60, 0⟩ ⟨CandKind.single, ["T1"], 0, 75, 0⟩ = 0 ∧
    (⟨CandKind.single, ["T1"], 0, 60, 0⟩ : Candidate) ≠ ⟨CandKind.single, ["T1"], 0, 75, 0⟩ ∧
    List.Perm
      [(⟨CandKind.single, ["T1"], 0, 75, 0⟩ : Candidate), ⟨CandKind.single, ["T1"], 0, 60, 0⟩]
      [⟨CandKind.single, ["T1"], 0, 60, 0⟩, ⟨CandKind.single, ["T1"], 0, 75, 0⟩] ∧
    selectBestCandidate
        [⟨CandKind.single, ["T1"], 0, 75, 0⟩, ⟨CandKind.single, ["T1"], 0, 60, 0⟩] ≠
      selectBestCandidate
        [⟨CandKind.single, ["T1"], 0, 60, 0⟩, ⟨CandKind.single, ["T1"], 0, 75, 0⟩] := by
  refine ⟨?_, ?_, ?_, ?_⟩ <;> decide

/-- C4 (amended): the comparator is a total preorder whose equivalence
classes are the tuples (kind, waste, start, joined table ids); on any
candidate list where distinct candidates never share all four comparison
keys, `selectBestCandidate` is invariant under permutation of the list,
and it returns `none` on the empty list. -/
theorem selectBestCandidate_perm (cs cs2 : List Candidate)
    (hkeys : ∀ a ∈ cs, ∀ b ∈ cs, candCompare a b = 0 → a = b)
    (hperm : cs2.Perm cs) :
    selectBestCandidate cs2 = selectBestCandidate cs ∧
    selectBestCandidate ([] : List Candidate) = none := by
  refine ⟨?_, rfl⟩
  haveI instTot : IsTotal Candidate candLe := ⟨fun x y => by
    unfold candLe
    have h := candCompare_antisymm x y
    omega⟩
  haveI instTrans : IsTrans Candidate candLe := ⟨fun x y z hx hy => candCompare_trans hx hy⟩
  have key : ∀ (l : List Candidate) (x0 : Candidate) (l0 : List Candidate), l = x0 :: l0 →
      ∃ m, selectBestCandidate l = some m ∧ m ∈ l ∧ ∀ y ∈ l, candLe m y := by
    intro l x0 l0 hl
    have hperm2 : List.Perm (l.insertionSort candLe) l := List.perm_insertionSort candLe l
    cases hs : l.insertionSort candLe with
    | nil =>
        rw [hs] at hperm2
        rw [hperm2.symm.eq_nil] at hl
        exact absurd hl (List.cons_ne_nil x0 l0).symm
    | cons m rest =>
        refine ⟨m, ?_, ?_, ?_⟩
        · rw [hl]
          show ((x0 :: l0).insertionSort candLe).head? = some m
          rw [← hl, hs]
          rfl
        · rw [hs] at hperm2
          exact hperm2.subset (List.mem_cons_self m rest)
        · intro y hy
          have hsorted := List.sorted_insertionSort candLe l
          rw [hs] at hsorted hperm2
          have hy2 : y ∈ m :: rest := hperm2.symm.subset hy
          rcases List.mem_cons.mp hy2 with h | h
          · subst h
            unfold candLe
            rw [candCompare_self]
          · exact List.rel_of_sorted_cons hsorted y h
  cases hcs : cs with
  | nil =>
      rw [hcs] at hperm
      rw [hperm.eq_nil]
  | cons x0 l0 =>
      have hcs2 : cs2 ≠ [] := by
        intro h
        rw [h, hcs] at hperm
        exact absurd hperm.symm.eq_nil (List.cons_ne_nil x0 l0)
      obtain ⟨x2, l2, hx2⟩ := List.exists_cons_of_ne_nil hcs2
      rw [← hcs]
      obtain ⟨m, hm, hmem, hmin⟩ := key cs x0 l0 hcs
      obtain ⟨m2, hm2, hmem2, hmin2⟩ := key cs2 x2 l2 hx2
      have hm2cs : m2 ∈ cs := hperm.subset hmem2
      have hmcs2 : m ∈ cs2 := hperm.symm.subset hmem
      have h1 : candCompare m m2 ≤ 0 := hmin m2 hm2cs
      have h2 : candCompare m2 m ≤ 0 := hmin2 m hmcs2
      have h0 : candCompare m m2 = 0 := by
        have h := candCompare_antisymm m m2
        omega
      have hmm : m = m2 := hkeys m hmem m2 hm2cs h0
      rw [hm, hm2, hmm]

/-- Witness for C4 (amended): two candidates with distinct keys selected
identically from the list and its swap. -/
theorem selectBestCandidate_perm_witness :
    selectBestCandidate
        [(⟨CandKind.single, ["B"], 15, 90, 1⟩ : Candidate), ⟨CandKind.single, ["A"], 0, 75, 0⟩] =
      selectBestCandidate
        [(⟨CandKind.single, ["A"], 0, 75, 0⟩ : Candidate), ⟨CandKind.single, ["B"], 15, 90, 1⟩] ∧
    selectBestCandidate ([] : List Candidate) = none :=
  selectBestCandidate_perm
    [⟨CandKind.single, ["A"], 0, 75, 0⟩, ⟨CandKind.single, ["B"], 15, 90, 1⟩]
    [⟨CandKind.single, ["B"], 15, 90, 1⟩, ⟨CandKind.single, ["A"], 0, 75, 0⟩]
    (by decide)
    (List.Perm.swap (⟨CandKind.single, ["A"], 0, 75, 0⟩ : Candidate)
      (⟨CandKind.single, ["B"], 15, 90, 1⟩ : Candidate) [])

theorem bookingsSelect_created_idem (st : SysState) (key : String) (bd : BookingBody)
    (dm : Int) (lockKey : String) (now : Int) (newId : String)
    (cands : List Candidate) (b : Booking) (st2 : SysState)
    (h : bookingsSelect st (some key) bd dm lockKey now newId cands =
      (BookResponse.created201 b, st2)) :
    mapGet st2.idem key = some ⟨b, now + 86400000⟩ := by
  unfold bookingsSelect at h
  cases hbest : selectBestCandidate cands with
  | none =>
      rw [hbest] at h
      simp at h
  | some best =>
      rw [hbest] at h
      simp only [Prod.mk.injEq, BookResponse.created201.injEq] at h
      obtain ⟨hb, hst⟩ := h
      subst hb
      subst hst
      exact mapGet_mapSet_self _ _ _

theorem bookingsFinish_created_idem (st : SysState) (key : String) (bd : BookingBody)
    (dm : Int) (lockKey : String) (now : Int) (newId : String) (b : Booking) (st2 : SysState)
    (h : bookingsFinish st (some key) bd dm lockKey now newId =
      (BookResponse.created201 b, st2)) :
    mapGet st2.idem key = some ⟨b, now + 86400000⟩ := by
  unfold bookingsFinish at h
  cases hrest : getRestaurant st bd.restaurantId with
  | none =>
      rw [hrest] at h
      simp at h
  | some restaurant =>
      rw [hrest] at h
      exact bookingsSelect_created_idem st key bd dm lockKey now newId _ b st2 h

theorem bookingsCore_some_eq (st : SysState) (idemKey : Option String) (bd : BookingBody)
    (now : Int) (newId : String) :
    bookingsCore st idemKey (some bd) now newId =
      if (acquireLock st.locks
          (bd.restaurantId ++ ":" ++ bd.sectorId ++ ":" ++ toString bd.dayBase) 5000 now).1 then
        bookingsFinish
          { st with locks := (acquireLock st.locks
              (bd.restaurantId ++ ":" ++ bd.sectorId ++ ":" ++ toString bd.dayBase) 5000 now).2 }
          idemKey bd (getDurationForPartySize bd.partySize)
          (bd.restaurantId ++ ":" ++ bd.sectorId ++ ":" ++ toString bd.dayBase) now newId
      else
        (BookResponse.conflictBusy409, { st with locks := (acquireLock st.locks
            (bd.restaurantId ++ ":" ++ bd.sectorId ++ ":" ++ toString bd.dayBase) 5000 now).2 }) :=
  rfl

theorem bookingsCore_created_idem (st : SysState) (key : String) (body : Option BookingBody)
    (now : Int) (newId : String) (b : Booking) (st2 : SysState)
    (h : bookingsCore st (some key) body now newId = (BookResponse.created201 b, st2)) :
    mapGet st2.idem key = some ⟨b, now + 86400000⟩ := by
  cases body with
  | none =>
      rw [show bookingsCore st (some key) none now newId = (BookResponse.invalid400, st)
        from rfl] at h
      simp at h
  | some bd =>
      rw [bookingsCore_some_eq] at h
      split at h
      · exact bookingsFinish_created_idem _ key bd _ _ now newId b st2 h
      · simp at h

theorem bookingsHandler_some_eq (st : SysState) (key : String) (body : Option BookingBody)
    (now : Int) (newId : String) :
    bookingsHandler st (some key) body now newId =
      match getIdempotency st key now with
      | (some existing, st2) => (BookResponse.ok200 existing, st2)
      | (none, st2) => bookingsCore st2 (some key) body now newId := rfl

theorem getIdempotency_eq {st : SysState} {key : String} {now : Int} {b : Booking} {exp : Int}
    (hm : mapGet st.idem key = some ⟨b, exp⟩) :
    getIdempotency st key now =
      if exp ≤ now then (none, { st with idem := mapErase st.idem key })
      else (some b, st) := by
  unfold getIdempotency
  rw [hm]

/-- C3: if a first booking-creation call under idempotency key `key`
committed a reservation `b` (returned 201), then a second call with the
same key and payload before the 24h idempotency record expires returns
exactly `b` with 200 and leaves the whole store state — bookings map,
lock map and idempotency map — unchanged. -/
theorem bookings_idempotent (st0 st1 : SysState) (key : String) (body : Option BookingBody)
    (now1 now2 : Int) (id1 id2 : String) (b : Booking)
    (h1 : bookingsHandler st0 (some key) body now1 id1 = (BookResponse.created201 b, st1))
    (hle : now1 ≤ now2) (hexp : now2 < now1 + 86400000) :
    bookingsHandler st1 (some key) body now2 id2 = (BookResponse.ok200 b, st1) := by
  rw [bookingsHandler_some_eq] at h1
  cases hgi : getIdempotency st0 key now1 with
  | mk ex st2 =>
      rw [hgi] at h1
      cases ex with
      | some e =>
          have h1b : (BookResponse.ok200 e, st2) = (BookResponse.created201 b, st1) := h1
          simp at h1b
      | none =>
          have h1b : bookingsCore st2 (some key) body now1 id1 =
              (BookResponse.created201 b, st1) := h1
          have hidem := bookingsCore_created_idem st2 key body now1 id1 b st1 h1b
          rw [bookingsHandler_some_eq, getIdempotency_eq hidem, if_neg (by omega)]

/-- Witness for C3: on the one-table store, a first call under key "K"
commits booking `bk3`; the second call at time 100 returns the same
booking with 200 and the state `st3After` unchanged. -/
theorem bookings_idempotent_witness :
    bookingsHandler st3After (some "K") (some body3) 100 "BK2" =
      (BookResponse.ok200 bk3, st3After) :=
  bookings_idempotent st3Before st3After "K" (some body3) 0 100 "BK1" "BK2" bk3
    (by decide) (by decide) (by decide)

/-- C9: with a non-expired idempotency record for the supplied key, the
booking handler returns the stored booking with 200 before any body
validation, without acquiring the lease and without touching any state —
for every request body, including a malformed (`none`) or different one. -/
theorem bookings_idem_shortcircuit (st : SysState) (key : String) (body : Option BookingBody)
    (now : Int) (newId : String) (b : Booking) (exp : Int)
    (hget : mapGet st.idem key = some ⟨b, exp⟩) (hfresh : now < exp) :
    bookingsHandler st (some key) body now newId = (BookResponse.ok200 b, st) := by
  rw [bookingsHandler_some_eq, getIdempotency_eq hget, if_neg (by omega)]

/-- Witness for C9: the cached booking under key "K" is served even for a
malformed (absent) body. -/
theorem bookings_idem_shortcircuit_witness :
    bookingsHandler st3After (some "K") none 100 "BK9" =
      (BookResponse.ok200 bk3, st3After) :=
  bookings_idem_shortcircuit st3After "K" none 100 "BK9" bk3 86400000
    (by decide) (by decide)

/-- C7: the discover handler returns `findCandidates` output in generation
order, truncated — it never applies the Selection Policy order, although
its own doc comment promises candidates sorted by the selection strategy.
On `st7` (table T2 with waste 2 listed before T5 with waste 0) the body
starts with a waste-2 candidate while the policy order starts with a
waste-0 candidate. -/
theorem discover_not_policy_sorted :
    discover st7 q7 = DiscoverResponse.ok 15 75 cands7 ∧
    cands7 ≠ (cands7.insertionSort candLe).take 10 ∧
    cands7.head? = some ⟨CandKind.single, ["T2"], 0, 75, 2⟩ ∧
    (cands7.insertionSort candLe).head? = some ⟨CandKind.single, ["T5"], 0, 75, 0⟩ := by
  refine ⟨?_, ?_, ?_, ?_⟩ <;> decide

/-- C8 counterexample: `selectBestCandidate` runs `candidates.sort(...)`,
which sorts the caller's array in place (ES2019 `Array.prototype.sort` is
mutating), so after the call the candidates array differs from what was
passed in whenever it was not already sorted. -/
theorem selectBestCandidate_mutates_cex :
    (selectBestCandidateArr
      [(⟨CandKind.single, ["B"], 15, 90, 1⟩ : Candidate),
       ⟨CandKind.single, ["A"], 0, 75, 0⟩]).2 ≠
      [(⟨CandKind.single, ["B"], 15, 90, 1⟩ : Candidate),
       ⟨CandKind.single, ["A"], 0, 75, 0⟩] := by
  decide

/-- C8 (amended): `findCandidates` is pure (modelled as a function of its
inputs; it builds only fresh arrays), and `selectBestCandidate` neither
touches tables nor bookings and preserves the multiset of candidates, but
may reorder the caller's candidates array in place: the array ends up as
the sorted permutation, and the returned best is unchanged by that
modelling. -/
theorem selectBestCandidate_frame (cs : List Candidate) :
    List.Perm (selectBestCandidateArr cs).2 cs ∧
    (selectBestCandidateArr cs).1 = selectBestCandidate cs := by
  cases cs with
  | nil => exact ⟨List.Perm.refl _, rfl⟩
  | cons a l => exact ⟨List.perm_insertionSort candLe (a :: l), rfl⟩

theorem interRaw_eq (c n : Slot) :
    (⟨if n.start < c.start then c.start else n.start,
      if c.stop < n.stop then c.stop else n.stop⟩ : Slot) = interRaw c n := by
  unfold interRaw
  rw [Slot.mk.injEq]
  constructor
  · split <;> omega
  · split <;> omega

theorem slot_ext {s1 s2 : Slot} (h1 : s1.start = s2.start) (h2 : s1.stop = s2.stop) :
    s1 = s2 := by
  obtain ⟨a1, b1⟩ := s1
  obtain ⟨a2, b2⟩ := s2
  simp_all

theorem mem_pairInter {d : Int} {X Y : List Slot} {s : Slot} :
    s ∈ pairInter d X Y ↔
      ∃ x ∈ X, ∃ y ∈ Y, s = interRaw x y ∧ GoodSlot d s := by
  unfold pairInter
  rw [List.mem_flatMap]
  constructor
  · rintro ⟨x, hx, hmem⟩
    rw [List.mem_filterMap] at hmem
    obtain ⟨y, hy, hsy⟩ := hmem
    refine ⟨x, hx, y, hy, ?_⟩
    simp only [] at hsy
    have h1 : (if y.start < x.start then x.start else y.start) = (interRaw x y).start :=
      congrArg Slot.start (interRaw_eq x y)
    have h2 : (if x.stop < y.stop then x.stop else y.stop) = (interRaw x y).stop :=
      congrArg Slot.stop (interRaw_eq x y)
    rw [h1, h2] at hsy
    split at hsy
    · rename_i hcond
      rw [Option.some.injEq] at hsy
      subst hsy
      exact ⟨rfl, hcond.1, hcond.2⟩
    · cases hsy
  · rintro ⟨x, hx, y, hy, hs, hgood⟩
    refine ⟨x, hx, ?_⟩
    rw [List.mem_filterMap]
    refine ⟨y, hy, ?_⟩
    have h1 : (if y.start < x.start then x.start else y.start) = (interRaw x y).start :=
      congrArg Slot.start (interRaw_eq x y)
    have h2 : (if x.stop < y.stop then x.stop else y.stop) = (interRaw x y).stop :=
      congrArg Slot.stop (interRaw_eq x y)
    rw [hs] at hgood ⊢
    simp only []
    have hcond : (if y.start < x.start then x.start else y.start) <
        (if x.stop < y.stop then x.stop else y.stop) ∧
        d ≤ (if x.stop < y.stop then x.stop else y.stop) -
          (if y.start < x.start then x.start else y.start) := by
      rw [h1, h2]
      exact ⟨hgood.1, hgood.2⟩
    rw [if_pos hcond, Option.some.injEq]
    exact interRaw_eq x y

theorem bigInter_shrink : ∀ (ps : List Slot) (p : Slot),
    p.start ≤ (bigInter p ps).start ∧ (bigInter p ps).stop ≤ p.stop
  | [], _ => ⟨le_refl _, le_refl _⟩
  | x :: ps, p => by
      have ih := bigInter_shrink ps (interRaw p x)
      have h1 : p.start ≤ (interRaw p x).start := le_max_left _ _
      have h2 : (interRaw p x).stop ≤ p.stop := min_le_left _ _
      have hE : bigInter p (x :: ps) = bigInter (interRaw p x) ps := rfl
      rw [hE]
      omega

theorem mem_foldl_pairInter (d : Int) :
    ∀ (rest : List (List Slot)) (g0 : List Slot) (s : Slot), rest ≠ [] →
      (s ∈ rest.foldl (fun commonGaps nextGaps => pairInter d commonGaps nextGaps) g0 ↔
        ∃ p0 ∈ g0, ∃ picks, List.Forall₂ (fun a l => a ∈ l) picks rest ∧
          s = bigInter p0 picks ∧ GoodSlot d s)
  | [], _, _, h => absurd rfl h
  | [y], g0, s, _ => by
      rw [List.foldl_cons, List.foldl_nil, mem_pairInter]
      constructor
      · rintro ⟨x, hx, yy, hyy, hs, hgood⟩
        exact ⟨x, hx, [yy], List.Forall₂.cons hyy List.Forall₂.nil, hs, hgood⟩
      · rintro ⟨p0, hp0, picks, hF, hs, hgood⟩
        cases picks with
        | nil => cases hF
        | cons py picks2 =>
            cases hF with
            | cons hpy hF2 =>
                cases hF2
                exact ⟨p0, hp0, py, hpy, hs, hgood⟩
  | y :: y2 :: rest2, g0, s, _ => by
      rw [List.foldl_cons,
        mem_foldl_pairInter d (y2 :: rest2) (pairInter d g0 y) s (by simp)]
      constructor
      · rintro ⟨q0, hq0, picks2, hF, hs, hgood⟩
        rw [mem_pairInter] at hq0
        obtain ⟨p0, hp0, py, hpy, hq, _⟩ := hq0
        refine ⟨p0, hp0, py :: picks2, List.Forall₂.cons hpy hF, ?_, hgood⟩
        rw [hs, hq]
        rfl
      · rintro ⟨p0, hp0, picks, hF, hs, hgood⟩
        cases picks with
        | nil => cases hF
        | cons py picks2 =>
            cases hF with
            | cons hpy hF2 =>
                refine ⟨interRaw p0 py, ?_, picks2, hF2, ?_, hgood⟩
                · rw [mem_pairInter]
                  refine ⟨p0, hp0, py, hpy, rfl, ?_⟩
                  have hsub := bigInter_shrink picks2 (interRaw p0 py)
                  have hE : bigInter p0 (py :: picks2) =
                      bigInter (interRaw p0 py) picks2 := rfl
                  rw [hs, hE] at hgood
                  unfold GoodSlot at hgood ⊢
                  omega
                · rw [hs]
                  rfl

theorem interRaw_assoc (a b c : Slot) :
    interRaw (interRaw a b) c = interRaw a (interRaw b c) := by
  unfold interRaw
  rw [Slot.mk.injEq]
  exact ⟨max_assoc _ _ _, min_assoc _ _ _⟩

theorem bigInter_hoist : ∀ (ps : List Slot) (x q : Slot),
    bigInter (interRaw x q) ps = interRaw x (bigInter q ps)
  | [], _, _ => rfl
  | p :: ps, x, q => by
      have hE1 : bigInter (interRaw x q) (p :: ps) =
          bigInter (interRaw (interRaw x q) p) ps := rfl
      have hE2 : bigInter q (p :: ps) = bigInter (interRaw q p) ps := rfl
      rw [hE1, hE2, interRaw_assoc, bigInter_hoist ps x (interRaw q p)]

theorem bigInter_append (p : Slot) (l1 l2 : List Slot) :
    bigInter p (l1 ++ l2) = bigInter (bigInter p l1) l2 := by
  unfold bigInter
  rw [List.foldl_append]

theorem bigInter_start_bound : ∀ (ps : List Slot) (p : Slot),
    ((bigInter p ps).start = p.start ∨ ∃ x ∈ ps, (bigInter p ps).start = x.start) ∧
    (p.start ≤ (bigInter p ps).start ∧ ∀ x ∈ ps, x.start ≤ (bigInter p ps).start)
  | [], p => ⟨Or.inl rfl, le_refl _, fun x hx => absurd hx (List.not_mem_nil x)⟩
  | q :: ps, p => by
      have ih := bigInter_start_bound ps (interRaw p q)
      have hE : bigInter p (q :: ps) = bigInter (interRaw p q) ps := rfl
      have hmax : (interRaw p q).start = max p.start q.start := rfl
      rw [hE]
      constructor
      · rcases ih.1 with h | ⟨x, hx, hxe⟩
        · rcases max_choice p.start q.start with hm | hm
          · exact Or.inl (by rw [h, hmax, hm])
          · exact Or.inr ⟨q, List.mem_cons_self q ps, by rw [h, hmax, hm]⟩
        · exact Or.inr ⟨x, List.mem_cons_of_mem q hx, hxe⟩
      · have hp : p.start ≤ (interRaw p q).start := le_max_left _ _
        have hq : q.start ≤ (interRaw p q).start := le_max_right _ _
        refine ⟨le_trans hp ih.2.1, ?_⟩
        intro x hx
        rcases List.mem_cons.mp hx with h | h
        · subst h
          exact le_trans hq ih.2.1
        · exact ih.2.2 x h

theorem bigInter_stop_bound : ∀ (ps : List Slot) (p : Slot),
    ((bigInter p ps).stop = p.stop ∨ ∃ x ∈ ps, (bigInter p ps).stop = x.stop) ∧
    ((bigInter p ps).stop ≤ p.stop ∧ ∀ x ∈ ps, (bigInter p ps).stop ≤ x.stop)
  | [], p => ⟨Or.inl rfl, le_refl _, fun x hx => absurd hx (List.not_mem_nil x)⟩
  | q :: ps, p => by
      have ih := bigInter_stop_bound ps (interRaw p q)
      have hE : bigInter p (q :: ps) = bigInter (interRaw p q) ps := rfl
      have hmin : (interRaw p q).stop = min p.stop q.stop := rfl
      rw [hE]
      constructor
      · rcases ih.1 with h | ⟨x, hx, hxe⟩
        · rcases min_choice p.stop q.stop with hm | hm
          · exact Or.inl (by rw [h, hmin, hm])
          · exact Or.inr ⟨q, List.mem_cons_self q ps, by rw [h, hmin, hm]⟩
        · exact Or.inr ⟨x, List.mem_cons_of_mem q hx, hxe⟩
      · have hp : (interRaw p q).stop ≤ p.stop := min_le_left _ _
        have hq : (interRaw p q).stop ≤ q.stop := min_le_right _ _
        refine ⟨le_trans ih.2.1 hp, ?_⟩
        intro x hx
        rcases List.mem_cons.mp hx with h | h
        · subst h
          exact le_trans ih.2.1 hq
        · exact ih.2.2 x h

theorem bigInter_perm {p q : Slot} {ps qs : List Slot}
    (h : List.Perm (p :: ps) (q :: qs)) : bigInter p ps = bigInter q qs := by
  apply slot_ext
  · have h1 := bigInter_start_bound ps p
    have h2 := bigInter_start_bound qs q
    have hMmem : ∃ m ∈ q :: qs, (bigInter p ps).start = m.start := by
      rcases h1.1 with hh | ⟨x, hx, hxe⟩
      · exact ⟨p, h.subset (List.mem_cons_self p ps), hh⟩
      · exact ⟨x, h.subset (List.mem_cons_of_mem p hx), hxe⟩
    have hNmem : ∃ m ∈ p :: ps, (bigInter q qs).start = m.start := by
      rcases h2.1 with hh | ⟨x, hx, hxe⟩
      · exact ⟨q, h.symm.subset (List.mem_cons_self q qs), hh⟩
      · exact ⟨x, h.symm.subset (List.mem_cons_of_mem q hx), hxe⟩
    obtain ⟨m1, hm1, he1⟩ := hMmem
    obtain ⟨m2, hm2, he2⟩ := hNmem
    have hb1 : m1.start ≤ (bigInter q qs).start := by
      rcases List.mem_cons.mp hm1 with hh | hh
      · rw [hh]
        exact h2.2.1
      · exact h2.2.2 m1 hh
    have hb2 : m2.start ≤ (bigInter p ps).start := by
      rcases List.mem_cons.mp hm2 with hh | hh
      · rw [hh]
        exact h1.2.1
      · exact h1.2.2 m2 hh
    omega
  · have h1 := bigInter_stop_bound ps p
    have h2 := bigInter_stop_bound qs q
    have hMmem : ∃ m ∈ q :: qs, (bigInter p ps).stop = m.stop := by
      rcases h1.1 with hh | ⟨x, hx, hxe⟩
      · exact ⟨p, h.subset (List.mem_cons_self p ps), hh⟩
      · exact ⟨x, h.subset (List.mem_cons_of_mem p hx), hxe⟩
    have hNmem : ∃ m ∈ p :: ps, (bigInter q qs).stop = m.stop := by
      rcases h2.1 with hh | ⟨x, hx, hxe⟩
      · exact ⟨q, h.symm.subset (List.mem_cons_self q qs), hh⟩
      · exact ⟨x, h.symm.subset (List.mem_cons_of_mem q hx), hxe⟩
    obtain ⟨m1, hm1, he1⟩ := hMmem
    obtain ⟨m2, hm2, he2⟩ := hNmem
    have hb1 : (bigInter q qs).stop ≤ m1.stop := by
      rcases List.mem_cons.mp hm1 with hh | hh
      · rw [hh]
        exact h2.2.1
      · exact h2.2.2 m1 hh
    have hb2 : (bigInter p ps).stop ≤ m2.stop := by
      rcases List.mem_cons.mp hm2 with hh | hh
      · rw [hh]
        exact h1.2.1
      · exact h1.2.2 m2 hh
    omega

theorem forall₂_perm_right {α β : Type} {R : α → β → Prop} :
    ∀ {l2 l2q : List β}, List.Perm l2 l2q → ∀ {l1 : List α}, List.Forall₂ R l1 l2 →
      ∃ l1q, List.Perm l1 l1q ∧ List.Forall₂ R l1q l2q := by
  intro l2 l2q hp
  induction hp with
  | nil =>
      intro l1 hF
      cases hF
      exact ⟨[], List.Perm.nil, List.Forall₂.nil⟩
  | cons x hp2 ih =>
      intro l1 hF
      cases l1 with
      | nil => cases hF
      | cons a t =>
          cases hF with
          | cons ha hF2 =>
              obtain ⟨tq, hpq, hFq⟩ := ih hF2
              exact ⟨a :: tq, List.Perm.cons a hpq, List.Forall₂.cons ha hFq⟩
  | swap x y l =>
      intro l1 hF
      cases l1 with
      | nil => cases hF
      | cons a t =>
          cases hF with
          | cons ha hF2 =>
              cases t with
              | nil => cases hF2
              | cons b t2 =>
                  cases hF2 with
                  | cons hb hF3 =>
                      exact ⟨b :: a :: t2, List.Perm.swap b a t2,
                        List.Forall₂.cons hb (List.Forall₂.cons ha hF3)⟩
  | trans hp1 hp2 ih1 ih2 =>
      intro l1 hF
      obtain ⟨lm, hpm, hFm⟩ := ih1 hF
      obtain ⟨lq, hpq, hFq⟩ := ih2 hFm
      exact ⟨lq, hpm.trans hpq, hFq⟩

theorem forall₂_append_split {α β : Type} {R : α → β → Prop} :
    ∀ {A : List β} {B : List β} {picks : List α},
      List.Forall₂ R picks (A ++ B) →
      ∃ pa pb, picks = pa ++ pb ∧ List.Forall₂ R pa A ∧ List.Forall₂ R pb B := by
  intro A
  induction A with
  | nil =>
      intro B picks h
      exact ⟨[], picks, rfl, List.Forall₂.nil, h⟩
  | cons a A2 ih =>
      intro B picks h
      cases picks with
      | nil => cases h
      | cons x t =>
          cases h with
          | cons hx ht =>
              obtain ⟨pa, pb, heq, hA, hB⟩ := ih ht
              refine ⟨x :: pa, pb, ?_, List.Forall₂.cons hx hA, hB⟩
              rw [heq]
              rfl

theorem mem_intersectGaps_cons (d : Int) (g0 : List Slot) (rest : List (List Slot)) (s : Slot)
    (hne : rest ≠ []) :
    s ∈ intersectGaps (g0 :: rest) d ↔
      ∃ p0 ∈ g0, ∃ picks, List.Forall₂ (fun a l => a ∈ l) picks rest ∧
        s = bigInter p0 picks ∧ GoodSlot d s := by
  rw [show intersectGaps (g0 :: rest) d =
      rest.foldl (fun commonGaps nextGaps => pairInter d commonGaps nextGaps) g0 from rfl]
  exact mem_foldl_pairInter d rest g0 s hne

/-- C5: `intersectGaps` is commutative and associative over the fold order:
permuting the list of per-resource gap lists leaves the set of returned
intervals unchanged, and splitting the list into two non-empty groups,
intersecting each, and combining the two results with one more pairwise
intersection step also yields the same set. -/
theorem intersectGaps_comm_assoc :
    (∀ (L L2 : List (List Slot)) (d : Int), List.Perm L L2 →
      ∀ s : Slot, s ∈ intersectGaps L d ↔ s ∈ intersectGaps L2 d) ∧
    (∀ (L1 L2 : List (List Slot)) (d : Int), L1 ≠ [] → L2 ≠ [] →
      ∀ s : Slot, s ∈ intersectGaps (L1 ++ L2) d ↔
        s ∈ pairInter d (intersectGaps L1 d) (intersectGaps L2 d)) := by
  have hmemInter : ∀ (d : Int) (g0 : List Slot) (rest : List (List Slot)) (x : Slot),
      x ∈ intersectGaps (g0 :: rest) d ↔
        ∃ p0 ∈ g0, ∃ pa, List.Forall₂ (fun a l => a ∈ l) pa rest ∧ x = bigInter p0 pa ∧
          (rest = [] ∨ GoodSlot d x) := by
    intro d g0 rest x
    cases rest with
    | nil =>
        constructor
        · intro hx
          exact ⟨x, hx, [], List.Forall₂.nil, rfl, Or.inl rfl⟩
        · rintro ⟨p0, hp0, pa, hFa, hxeq, _⟩
          cases hFa
          exact hxeq ▸ hp0
    | cons r1 rest2 =>
        rw [mem_intersectGaps_cons d g0 (r1 :: rest2) x (by simp)]
        constructor
        · rintro ⟨p0, hp0, pa, hFa, hxeq, hgood⟩
          exact ⟨p0, hp0, pa, hFa, hxeq, Or.inr hgood⟩
        · rintro ⟨p0, hp0, pa, hFa, hxeq, hgood⟩
          rcases hgood with h | h
          · exact absurd h (by simp)
          · exact ⟨p0, hp0, pa, hFa, hxeq, h⟩
  refine ⟨?_, ?_⟩
  · intro L L2 d hperm s
    cases L with
    | nil =>
        rw [hperm.symm.eq_nil]
    | cons g0 rest =>
        cases L2 with
        | nil => exact absurd hperm.eq_nil (List.cons_ne_nil g0 rest)
        | cons g02 rest2 =>
            cases rest with
            | nil =>
                have hs2 : g02 :: rest2 = [g0] := List.perm_singleton.mp hperm.symm
                rw [hs2]
            | cons g1 rest3 =>
                have hlen := hperm.length_eq
                cases rest2 with
                | nil => simp at hlen
                | cons g12 rest4 =>
                    rw [mem_intersectGaps_cons d g0 (g1 :: rest3) s (by simp),
                        mem_intersectGaps_cons d g02 (g12 :: rest4) s (by simp)]
                    constructor
                    · rintro ⟨p0, hp0, picks, hF, hs, hgood⟩
                      obtain ⟨picksq, hpq, hFq⟩ :=
                        forall₂_perm_right hperm (List.Forall₂.cons hp0 hF)
                      cases picksq with
                      | nil => cases hFq
                      | cons q0 picks2 =>
                          cases hFq with
                          | cons hq0 hF2 =>
                              refine ⟨q0, hq0, picks2, hF2, ?_, hgood⟩
                              rw [hs]
                              exact bigInter_perm hpq
                    · rintro ⟨p0, hp0, picks, hF, hs, hgood⟩
                      obtain ⟨picksq, hpq, hFq⟩ :=
                        forall₂_perm_right hperm.symm (List.Forall₂.cons hp0 hF)
                      cases picksq with
                      | nil => cases hFq
                      | cons q0 picks2 =>
                          cases hFq with
                          | cons hq0 hF2 =>
                              refine ⟨q0, hq0, picks2, hF2, ?_, hgood⟩
                              rw [hs]
                              exact bigInter_perm hpq
  · intro L1 L2 d h1 h2 s
    obtain ⟨g0, rest1, rfl⟩ := List.exists_cons_of_ne_nil h1
    obtain ⟨h0, rest2, rfl⟩ := List.exists_cons_of_ne_nil h2
    rw [mem_pairInter,
        show (g0 :: rest1) ++ (h0 :: rest2) = g0 :: (rest1 ++ h0 :: rest2) from rfl,
        mem_intersectGaps_cons d g0 (rest1 ++ h0 :: rest2) s (by simp)]
    constructor
    · rintro ⟨p0, hp0, picks, hF, hs, hgood⟩
      obtain ⟨pa, pb, heq, hFa, hFb⟩ := forall₂_append_split hF
      cases pb with
      | nil => cases hFb
      | cons y0 pbt =>
          cases hFb with
          | cons hy0 hFb2 =>
              subst heq
              have hx : s = interRaw (bigInter p0 pa) (bigInter y0 pbt) := by
                rw [hs, bigInter_append]
                have hE : bigInter (bigInter p0 pa) (y0 :: pbt) =
                    bigInter (interRaw (bigInter p0 pa) y0) pbt := rfl
                rw [hE, bigInter_hoist]
              have hxb1 : (bigInter p0 pa).start ≤ s.start := by
                rw [hx]
                exact le_max_left _ _
              have hxb2 : s.stop ≤ (bigInter p0 pa).stop := by
                rw [hx]
                exact min_le_left _ _
              have hyb1 : (bigInter y0 pbt).start ≤ s.start := by
                rw [hx]
                exact le_max_right _ _
              have hyb2 : s.stop ≤ (bigInter y0 pbt).stop := by
                rw [hx]
                exact min_le_right _ _
              refine ⟨bigInter p0 pa, ?_, bigInter y0 pbt, ?_, hx, hgood⟩
              · rw [hmemInter d g0 rest1 (bigInter p0 pa)]
                refine ⟨p0, hp0, pa, hFa, rfl, ?_⟩
                cases rest1 with
                | nil => exact Or.inl rfl
                | cons r1 rest1b =>
                    refine Or.inr ?_
                    unfold GoodSlot at hgood ⊢
                    omega
              · rw [hmemInter d h0 rest2 (bigInter y0 pbt)]
                refine ⟨y0, hy0, pbt, hFb2, rfl, ?_⟩
                cases rest2 with
                | nil => exact Or.inl rfl
                | cons r2 rest2b =>
                    refine Or.inr ?_
                    unfold GoodSlot at hgood ⊢
                    omega
    · rintro ⟨x, hxmem, y, hymem, hs, hgood⟩
      rw [hmemInter d g0 rest1 x] at hxmem
      rw [hmemInter d h0 rest2 y] at hymem
      obtain ⟨p0, hp0, pa, hFa, hxeq, _⟩ := hxmem
      obtain ⟨y0, hy0, pb, hFb, hyeq, _⟩ := hymem
      refine ⟨p0, hp0, pa ++ y0 :: pb, List.rel_append hFa (List.Forall₂.cons hy0 hFb),
        ?_, hgood⟩
      rw [hs, hxeq, hyeq, bigInter_append]
      have hE : bigInter (bigInter p0 pa) (y0 :: pb) =
          bigInter (interRaw (bigInter p0 pa) y0) pb := rfl
      rw [hE, bigInter_hoist]

/-- Witness for C5: resource A free `[0,120)`, resource B free `[60,180)`,
minimum duration 60; the intersection `[60,120)` is in the result however
the two gap lists are ordered. -/
theorem intersectGaps_comm_assoc_witness :
    ((⟨60, 120⟩ : Slot) ∈ intersectGaps [[⟨0, 120⟩], [⟨60, 180⟩]] 60 ↔
      (⟨60, 120⟩ : Slot) ∈ intersectGaps [[⟨60, 180⟩], [⟨0, 120⟩]] 60) ∧
    (⟨60, 120⟩ : Slot) ∈ intersectGaps [[⟨0, 120⟩], [⟨60, 180⟩]] 60 := by
  refine ⟨?_, by decide⟩
  exact intersectGaps_comm_assoc.1 [[⟨0, 120⟩], [⟨60, 180⟩]] [[⟨60, 180⟩], [⟨0, 120⟩]] 60
    (List.Perm.swap ([⟨60, 180⟩] : List Slot) ([⟨0, 120⟩] : List Slot) []) ⟨60, 120⟩
